import Mathlib

/-!
Verification of the sampling-and-simulation core of the redis-stat utility
(redis-tools, src/redis-stat.c), shallowly embedded in Lean.

The embedding covers:
* sampleDataset  -> collect / meanOf / deltasumOf / stddevRadicand
* vmpage         -> pagesNeeded / offsetModulus / findOffset / simStep /
                    simLoop / scoreOf / pagesizesFrom / selStep / selectBest
* samplesToGraph -> resolveAuto / upperBound / binDescend / binIdx /
                    freqOf / highDescend / highIdx

Machine integers are modelled as Nat/Int; the one place where C unsigned
wraparound matters (the size_t subtraction totpages - (pages_needed - 1))
is modelled with an explicit mod 2^64 (offsetModulus).  The C heap bytes
that live past the end of the pages[] array are modelled by an explicit
"junk" function: an out-of-bounds read of pages[i] returns junk i.
-/

/-! ## Sample collector (sampleDataset) -/

/-- A reply observed by one iteration of the sampling loop: the RANDOMKEY
answer collapsed together with the serialized length that would be fetched
for the returned key (the code of getSerializedLen).  nilReply models
REDIS_REPLY_NIL, errReply models REDIS_REPLY_ERROR, and keyReply sl models a
successful key whose DEBUG OBJECT reports serializedlength sl. -/
inductive SourceReply where
  | nilReply : SourceReply
  | errReply : SourceReply
  | keyReply : ℕ → SourceReply
deriving DecidableEq

/-- Whether the reply is a successful key reply. -/
def SourceReply.isKey : SourceReply → Bool
  | SourceReply.keyReply _ => true
  | _ => false

/-- The serialized length carried by the reply (0 for non-key replies). -/
def SourceReply.size : SourceReply → ℕ
  | SourceReply.keyReply sl => sl
  | _ => 0

/-- Outcome of the collection loop.  sourceEmpty and sourceError model the
two exit(1) paths of sampleDataset; they carry no samples because the
process terminates before returning the vector.  outOfFuel is an artifact
of the fuel-indexed embedding of the unbounded C loop and is never the
result when enough fuel is supplied. -/
inductive CollectResult where
  | ok : List ℕ → CollectResult
  | sourceEmpty : CollectResult
  | sourceError : CollectResult
  | outOfFuel : CollectResult
deriving DecidableEq

/-- The sampling loop of sampleDataset (type SAMPLE_SERIALIZEDLEN).
src is the stream of source replies indexed by how many requests have been
issued so far; slots is the remaining sample budget (samplesize - j); acc
accumulates samples in reverse.  A zero serialized length decrements j
(retries the same slot); fuel bounds the number of loop iterations only so
that the definition is total. -/
def collect (src : ℕ → SourceReply) : ℕ → ℕ → ℕ → List ℕ → CollectResult
  | _, 0, _, acc => CollectResult.ok acc.reverse
  | 0, _ + 1, _, _ => CollectResult.outOfFuel
  | fuel + 1, slots + 1, pos, acc =>
      match src pos with
      | SourceReply.nilReply => CollectResult.sourceEmpty
      | SourceReply.errReply => CollectResult.sourceError
      | SourceReply.keyReply sl =>
          if sl = 0 then collect src fuel (slots + 1) (pos + 1) acc
          else collect src fuel slots (pos + 1) (sl :: acc)

/-- avg = totsl / config.samplesize (size_t integer division). -/
def meanOf (samples : List ℕ) (n : ℕ) : ℕ := samples.sum / n

/-- deltasum = sum over samples of delta*delta where
long delta = avg - samples[j]; the two's-complement round trip through
size_t yields the square of the signed difference. -/
def deltasumOf (samples : List ℕ) (n : ℕ) : ℕ :=
  (samples.map (fun s => ((meanOf samples n : ℤ) - (s : ℤ)).natAbs ^ 2)).sum

/-- The argument passed to sqrt by the standard-deviation printf:
deltasum / config.samplesize, again a size_t integer division. -/
def stddevRadicand (samples : List ℕ) (n : ℕ) : ℕ := deltasumOf samples n / n

/-! ## Page-size simulator (vmpage) -/

/-- VMPAGE_PAGES. -/
def TOTAL_PAGES : ℕ := 1000000

/-- The 200 placement attempts of the inner for loop. -/
def RETRY_LIMIT : ℕ := 200

/-- pages_needed = (bytes_needed + (pagesize - 1)) / pagesize. -/
def pagesNeeded (bytes ps : ℕ) : ℕ := (bytes + (ps - 1)) / ps

/-- The modulus of the random offset draw:
totpages - (pages_needed - 1) evaluated in size_t arithmetic, i.e.
modulo 2^64.  When pages_needed exceeds totpages this subtraction wraps
around to a huge value. -/
def offsetModulus (pn : ℕ) : ℕ :=
  ((((TOTAL_PAGES : ℤ) - ((pn : ℤ) - 1)) % (2 ^ 64))).toNat

/-- Whether reading pages[i] sees an unoccupied byte.  Indices below
TOTAL_PAGES read the real occupancy table (modelled as the finite set occ
of occupied indices); indices past the end of the array read whatever heap
byte happens to live there, modelled by junk. -/
def isFree (occ : Finset ℕ) (junk : ℕ → Bool) (i : ℕ) : Bool :=
  if i < TOTAL_PAGES then decide (i ∉ occ) else !(junk i)

/-- The scan for (i = off; i < off+pages_needed; i++) if (pages[i] != 0)
break: the placement is accepted iff every page of the run reads free. -/
def runFree (occ : Finset ℕ) (junk : ℕ → Bool) (off pn : ℕ) : Bool :=
  (List.range pn).all (fun k => isFree occ junk (off + k))

/-- The table entries actually set to 1 by memset(pages+off,1,pages_needed):
only the indices of the run that are inside the array. -/
def runPages (off pn : ℕ) : Finset ℕ :=
  (((List.range pn).map (fun k => off + k)).filter (fun i => i < TOTAL_PAGES)).toFinset

/-- The inner attempt loop: up to the given number of attempts, draw
off = tape pos % m and accept the first offset whose whole run reads
free.  Returns the accepted offset together with the tape position after
the accepting draw. -/
def findOffset (tape : ℕ → ℕ) (junk : ℕ → Bool) (occ : Finset ℕ) (pn m : ℕ) :
    ℕ → ℕ → Option (ℕ × ℕ)
  | _, 0 => none
  | pos, a + 1 =>
      let off := tape pos % m
      if runFree occ junk off pn then some (off, pos + 1)
      else findOffset tape junk occ pn m (pos + 1) a

/-- The per-candidate mutable state of vmpage: the occupancy table (its
in-bounds occupied indices), the stored_bytes and used_pages accumulators,
and the number of random() draws consumed so far. -/
structure SimState where
  occ : Finset ℕ
  stored : ℕ
  used : ℕ
  pos : ℕ

/-- stored_bytes = used_pages = 0 and memset(pages,0,totpages). -/
def simInit : SimState := ⟨∅, 0, 0, 0⟩

/-- One iteration of the while(1) loop: draw a sample index, compute the
pages needed, and run the 200-attempt placement loop.  some is a completed
placement; none is the j == 200 exit. -/
def simStep (ps : ℕ) (samples : List ℕ) (tape : ℕ → ℕ) (junk : ℕ → Bool)
    (st : SimState) : Option SimState :=
  let r := tape st.pos % samples.length
  let bytes := samples.getD r 0
  let pn := pagesNeeded bytes ps
  match findOffset tape junk st.occ pn (offsetModulus pn) (st.pos + 1) RETRY_LIMIT with
  | some p => some ⟨st.occ ∪ runPages p.1 pn, st.stored + bytes, st.used + pn, p.2⟩
  | none => none

/-- The while(1) loop, indexed by fuel (a bound on the number of
placements) so that the definition is total; the loop exits for real only
through the none branch of simStep. -/
def simLoop (ps : ℕ) (samples : List ℕ) (tape : ℕ → ℕ) (junk : ℕ → Bool) :
    ℕ → SimState → SimState
  | 0, st => st
  | fuel + 1, st =>
      match simStep ps samples tape junk st with
      | some st2 => simLoop ps samples tape junk fuel st2
      | none => st

/-- score = ((double)stored_bytes/totpages) *
(((double)stored_bytes*100)/(totpages*pagesize)), with double arithmetic
embedded as exact rational arithmetic. -/
def scoreOf (stored ps : ℕ) : ℚ :=
  ((stored : ℚ) / (TOTAL_PAGES : ℚ)) *
    ((stored : ℚ) * 100 / ((TOTAL_PAGES : ℚ) * (ps : ℚ)))

/-- The candidate page sizes produced by
for (pagesize = 8; pagesize <= 1024*64; pagesize *= 2), as the list of
values taken from a given starting point.  The 0 < p guard only rules out
the fixpoint p = 0 that the C loop (starting from 8) never reaches. -/
def pagesizesFrom (p : ℕ) : List ℕ :=
  if h : 0 < p ∧ p ≤ 65536 then p :: pagesizesFrom (2 * p) else []
termination_by 65537 - p
decreasing_by omega

/-- The tested page sizes, starting from 8. -/
def candidates : List ℕ := pagesizesFrom 8

/-- The diagnostics recorded for one tested page size. -/
structure CandidateResult where
  pageSize : ℕ
  storedBytes : ℕ
  usedPages : ℕ
  score : ℚ

/-- Run the simulation for one candidate page size and record its result. -/
def runCandidate (samples : List ℕ) (tape : ℕ → ℕ) (junk : ℕ → Bool)
    (fuel ps : ℕ) : CandidateResult :=
  let st := simLoop ps samples tape junk fuel simInit
  ⟨ps, st.stored, st.used, scoreOf st.stored ps⟩

/-- One result per candidate page size, in loop order. -/
def vmpageResults (samples : List ℕ) (tape : ℕ → ℕ) (junk : ℕ → Bool)
    (fuel : ℕ) : List CandidateResult :=
  candidates.map (runCandidate samples tape junk fuel)

/-- The best-candidate update:
if (bestpagesize == 0 || bestscore < score) take the new candidate.
A candidate is a (pagesize, score) pair. -/
def selStep (best cand : ℕ × ℚ) : ℕ × ℚ :=
  if best.1 = 0 ∨ best.2 < cand.2 then cand else best

/-- The selection over the whole candidate pass, starting from
bestpagesize = 0, bestscore = 0. -/
def selectBest (cands : List (ℕ × ℚ)) : ℕ × ℚ := cands.foldl selStep (0, 0)

/-! ## Histogram binner (samplesToGraph) -/

/-- GRAPH_ROWS. -/
def GRAPH_ROWS : ℕ := 20

/-- The concrete scale kinds SCALE_POWEROFTWO and SCALE_LINEAR_SMALL /
_MED / _LARGE.  SCALE_LINEAR_AUTO is resolved to one of the linear kinds
before any scale table is built, so it is modelled by resolveAutoScale
rather than by a constructor. -/
inductive ScaleType where
  | powerOfTwo : ScaleType
  | linearSmall : ScaleType
  | linearMed : ScaleType
  | linearLarge : ScaleType
deriving DecidableEq

/-- scale[j] for each scale kind; (size_t)pow(2,j) is exact 2^j for the
indices 0..19 in use. -/
def upperBound : ScaleType → ℕ → ℕ
  | ScaleType.powerOfTwo, j => 2 ^ j
  | ScaleType.linearSmall, j => j + 1
  | ScaleType.linearMed, j => (j + 1) * 5
  | ScaleType.linearLarge, j => (j + 1) * 50

/-- The two escalation tests applied to one sample inside the
auto-detection scan (the pair of if statements of one loop iteration). -/
def autoStep (st : ScaleType) (s : ℕ) : ScaleType :=
  let st1 := if st = ScaleType.linearSmall ∧ 1 * GRAPH_ROWS < s
             then ScaleType.linearMed else st
  if st1 = ScaleType.linearMed ∧ 5 * GRAPH_ROWS < s
  then ScaleType.linearLarge else st1

/-- The auto-detection scan over the samples, with the break taken as soon
as the scale reaches linearLarge. -/
def resolveAuto : List ℕ → ScaleType → ScaleType
  | [], st => st
  | s :: rest, st =>
      let st1 := autoStep st s
      if st1 = ScaleType.linearLarge then ScaleType.linearLarge
      else resolveAuto rest st1

/-- SCALE_LINEAR_AUTO resolution: start from SCALE_LINEAR_SMALL and scan
all the samples. -/
def resolveAutoScale (samples : List ℕ) : ScaleType :=
  resolveAuto samples ScaleType.linearSmall

/-- The binning descent for one sample:
i = GRAPH_ROWS-1; while (i > 0 && scale[i-1] >= samples[j]) i--;
stated as a recursion on i (the argument i+1 checks scale[i]). -/
def binDescend (scale : ℕ → ℕ) (s : ℕ) : ℕ → ℕ
  | 0 => 0
  | i + 1 => if s ≤ scale i then binDescend scale s i else i + 1

/-- The bucket index a sample is counted in. -/
def binIdx (ty : ScaleType) (s : ℕ) : ℕ :=
  binDescend (upperBound ty) s (GRAPH_ROWS - 1)

/-- freq[i] after the counting loop. -/
def freqOf (ty : ScaleType) (samples : List ℕ) (i : ℕ) : ℕ :=
  (samples.filter (fun s => binIdx ty s = i)).length

/-- for (high = GRAPH_ROWS-1; high > 0; high--) if (freq[high]) break. -/
def highDescend (freq : ℕ → ℕ) : ℕ → ℕ
  | 0 => 0
  | i + 1 => if freq (i + 1) ≠ 0 then i + 1 else highDescend freq i

/-- The highest rendered bucket index. -/
def highIdx (ty : ScaleType) (samples : List ℕ) : ℕ :=
  highDescend (freqOf ty samples) (GRAPH_ROWS - 1)

/-- The label printed for a rendered bucket j <= high:
left bound means "<= scale[j]"; gtScaleEntry k means the overflow label
"> scale[k]" where k is the raw table index j - 1 computed by the code
(an integer, so that the out-of-bounds value -1 is representable). -/
inductive BucketLabel where
  | leBound : ℕ → BucketLabel
  | gtScaleEntry : ℤ → BucketLabel
deriving DecidableEq

/-- The label of bucket j in a rendering whose top bucket is high. -/
def bucketLabel (ty : ScaleType) (high j : ℕ) : BucketLabel :=
  if j ≠ high then BucketLabel.leBound (upperBound ty j)
  else BucketLabel.gtScaleEntry ((j : ℤ) - 1)

/-- The scale-table index read for the overflow label of the top bucket:
scale[high - 1], as the integer high - 1. -/
def overflowScaleIdx (ty : ScaleType) (samples : List ℕ) : ℤ :=
  (highIdx ty samples : ℤ) - 1

/-! ## Theorems -/

/-- C1, counterexample.  The claim says the reported standard deviation for
the samples 10, 20, 30 is sqrt((100+0+100)/3), about 8.165.  The code
passes deltasum / config.samplesize to sqrt, and that division is size_t
integer division: the radicand is 200 / 3 = 66, so the reported value is
sqrt 66, about 8.124, which differs from sqrt(200/3). -/
theorem stddev_not_population_formula_cex :
    Real.sqrt ((stddevRadicand [10, 20, 30] 3 : ℕ) : ℝ) ≠
      Real.sqrt ((200 : ℝ) / 3) := by
  have h : stddevRadicand [10, 20, 30] 3 = 66 := by decide
  rw [h, Ne, Real.sqrt_inj (by norm_num) (by norm_num)]
  norm_num

/-- C1, amended.  The mean is the integer division sum/n (20 for the
example, where the division happens to be exact), deltasum is the exact
sum of squared deviations from that integer mean (200), and the reported
standard deviation is the square root of the integer division
deltasum/n = 66, about 8.124. -/
theorem stats_integer_division_example :
    meanOf [10, 20, 30] 3 = 20 ∧ deltasumOf [10, 20, 30] 3 = 200 ∧
    stddevRadicand [10, 20, 30] 3 = 66 ∧
    Real.sqrt ((stddevRadicand [10, 20, 30] 3 : ℕ) : ℝ) = Real.sqrt 66 := by
  refine ⟨by decide, by decide, by decide, ?_⟩
  have h : stddevRadicand [10, 20, 30] 3 = 66 := by decide
  rw [h]
  norm_num

/-- C2.  The first candidate processed always replaces the initial
bestpagesize = 0 regardless of its score; once the best page size is
nonzero a candidate wins if and only if its score is strictly greater, so
equal scores keep the earlier candidate.  In particular on the score
sequence 5.0, 5.0 the first candidate stays selected and on 5.0, 5.1 the
second is selected. -/
theorem selection_best_update_rule :
    (∀ (bs : ℚ) (c : ℕ × ℚ), selStep (0, bs) c = c) ∧
    (∀ (bp : ℕ) (bs : ℚ) (c : ℕ × ℚ), bp ≠ 0 →
      selStep (bp, bs) c = if bs < c.2 then c else (bp, bs)) ∧
    selectBest [(8, 5), (16, 5)] = (8, 5) ∧
    selectBest [(8, 5), (16, 51 / 10)] = (16, 51 / 10) := by
  refine ⟨?_, ?_, ?_, ?_⟩
  · intro bs c
    simp [selStep]
  · intro bp bs c h
    by_cases hlt : bs < c.2 <;> simp [selStep, h, hlt]
  · norm_num [selectBest, selStep]
  · norm_num [selectBest, selStep]

/-- C2, witness: a nonzero current best is replaced according to the
strict comparison of scores. -/
theorem selection_best_update_rule_witness :
    selStep (8, (5 : ℚ)) (16, 6) = if (5 : ℚ) < 6 then (16, 6) else (8, 5) :=
  selection_best_update_rule.2.1 8 5 (16, 6) (by decide)

/-- C9.  Whenever the sampling loop still has budget and the source
answers the current request with a nil reply or an error reply, the
collection fails at once with the corresponding fatal outcome; the result
carries no samples at all, whatever had been accumulated. -/
theorem collect_fatal_on_source_reply :
    ∀ (src : ℕ → SourceReply) (fuel slots pos : ℕ) (acc : List ℕ),
    (src pos = SourceReply.nilReply →
      collect src (fuel + 1) (slots + 1) pos acc = CollectResult.sourceEmpty) ∧
    (src pos = SourceReply.errReply →
      collect src (fuel + 1) (slots + 1) pos acc = CollectResult.sourceError) := by
  intro src fuel slots pos acc
  constructor <;> intro h <;> simp [collect, h]

/-- C9, witness: a source that returns the empty-dataset reply on the very
first call makes the collection fail with sourceEmpty and zero collected
samples. -/
theorem collect_fatal_on_source_reply_witness :
    collect (fun _ => SourceReply.nilReply) 1 1 0 [] =
      CollectResult.sourceEmpty :=
  (collect_fatal_on_source_reply (fun _ => SourceReply.nilReply) 0 0 0 []).1 rfl

/-- Each scale table is monotone in the bucket index. -/
lemma upperBound_mono (ty : ScaleType) : Monotone (upperBound ty) := by
  intro a b hab
  cases ty <;> simp only [upperBound]
  · exact Nat.pow_le_pow_right (by norm_num) hab
  · omega
  · omega
  · omega

/-- The binning descent never moves up. -/
lemma binDescend_le (scale : ℕ → ℕ) (s : ℕ) : ∀ n, binDescend scale s n ≤ n := by
  intro n
  induction n with
  | zero => simp [binDescend]
  | succ i ih =>
      simp only [binDescend]
      split
      · exact Nat.le_trans ih (Nat.le_succ i)
      · exact Nat.le_refl _

/-- Characterisation of the binning descent for a monotone scale: every
bucket strictly below the result has an upper bound strictly below the
sample, and either the result's own bound reaches the sample or the
descent never moved off its starting index. -/
lemma binDescend_spec (scale : ℕ → ℕ) (hmono : Monotone scale) (s : ℕ) :
    ∀ n, (∀ j, j < binDescend scale s n → scale j < s) ∧
      (s ≤ scale (binDescend scale s n) ∨ binDescend scale s n = n) := by
  intro n
  induction n with
  | zero =>
      refine ⟨?_, Or.inr rfl⟩
      intro j hj
      simp [binDescend] at hj
  | succ i ih =>
      simp only [binDescend]
      split
      · next hle =>
          refine ⟨ih.1, Or.inl ?_⟩
          rcases ih.2 with h | h
          · exact h
          · rw [h]
            exact hle
      · next hgt =>
          refine ⟨?_, Or.inr rfl⟩
          intro j hj
          have hj' : j ≤ i := by omega
          exact Nat.lt_of_le_of_lt (hmono hj') (by omega)

/-- C6.  For every sample and every scale kind, the descending binning
loop lands on a bucket index below GRAPH_ROWS such that every lower bucket
has an upper bound strictly below the sample and, unless the index is the
top one, the bucket's own upper bound reaches the sample; when every
bucket's upper bound is below the sample the loop stays at index
GRAPH_ROWS - 1.  The frequency counted for bucket i (freqOf) is exactly
the number of samples whose descent lands on i. -/
theorem bin_index_smallest_bucket (ty : ScaleType) (s : ℕ) :
    binIdx ty s ≤ GRAPH_ROWS - 1 ∧
    (∀ j, j < binIdx ty s → upperBound ty j < s) ∧
    (s ≤ upperBound ty (binIdx ty s) ∨ binIdx ty s = GRAPH_ROWS - 1) ∧
    ((∀ j, j < GRAPH_ROWS → upperBound ty j < s) →
      binIdx ty s = GRAPH_ROWS - 1) := by
  have h1 : binIdx ty s ≤ GRAPH_ROWS - 1 :=
    binDescend_le (upperBound ty) s (GRAPH_ROWS - 1)
  have h2 : (∀ j, j < binIdx ty s → upperBound ty j < s) ∧
      (s ≤ upperBound ty (binIdx ty s) ∨ binIdx ty s = GRAPH_ROWS - 1) :=
    binDescend_spec (upperBound ty) (upperBound_mono ty) s (GRAPH_ROWS - 1)
  refine ⟨h1, h2.1, h2.2, ?_⟩
  intro hall
  rcases h2.2 with h | h
  · have hG : GRAPH_ROWS = 20 := rfl
    exact absurd (hall (binIdx ty s) (by omega)) (by omega)
  · exact h

/-- C6, witness: for sample 5 under the small linear scale the descent
lands on bucket 4, so bucket 2 lies strictly below it and its bound 3 is
strictly below the sample; and a sample above every bound stays in the top
bucket. -/
theorem bin_index_smallest_bucket_witness :
    (2 < binIdx ScaleType.linearSmall 5 ∧ upperBound ScaleType.linearSmall 2 < 5) ∧
    binIdx ScaleType.linearSmall 1000 = GRAPH_ROWS - 1 :=
  ⟨⟨by decide, (bin_index_smallest_bucket ScaleType.linearSmall 5).2.1 2 (by decide)⟩,
    (bin_index_smallest_bucket ScaleType.linearSmall 1000).2.2.2 (by decide)⟩

/-- The escalation step from linearMed only tests the 5 * GRAPH_ROWS
threshold. -/
lemma autoStep_med (s : ℕ) :
    autoStep ScaleType.linearMed s =
      if 5 * GRAPH_ROWS < s then ScaleType.linearLarge
      else ScaleType.linearMed := by
  simp [autoStep]

/-- The escalation step from linearSmall: a sample above 5 * GRAPH_ROWS
passes both thresholds in the same iteration and reaches linearLarge
directly. -/
lemma autoStep_small (s : ℕ) :
    autoStep ScaleType.linearSmall s =
      if 5 * GRAPH_ROWS < s then ScaleType.linearLarge
      else if 1 * GRAPH_ROWS < s then ScaleType.linearMed
      else ScaleType.linearSmall := by
  have hG : GRAPH_ROWS = 20 := rfl
  unfold autoStep
  split_ifs <;> try rfl
  all_goals simp_all
  all_goals omega

/-- Unfolding resolveAuto when the step escalates to linearLarge (the
break). -/
lemma resolveAuto_cons_large (s : ℕ) (rest : List ℕ) (st : ScaleType)
    (h : autoStep st s = ScaleType.linearLarge) :
    resolveAuto (s :: rest) st = ScaleType.linearLarge := by
  simp [resolveAuto, h]

/-- Unfolding resolveAuto when the step does not reach linearLarge. -/
lemma resolveAuto_cons_of_ne (s : ℕ) (rest : List ℕ) (st : ScaleType)
    (h : autoStep st s ≠ ScaleType.linearLarge) :
    resolveAuto (s :: rest) st = resolveAuto rest (autoStep st s) := by
  simp [resolveAuto, h]

/-- Scanning from linearMed never goes back down, reaches linearLarge
exactly when some remaining sample is above 5 * GRAPH_ROWS, and otherwise
stays at linearMed. -/
lemma resolveAuto_from_med (samples : List ℕ) :
    resolveAuto samples ScaleType.linearMed ≠ ScaleType.linearSmall ∧
    (resolveAuto samples ScaleType.linearMed = ScaleType.linearLarge ↔
      ∃ s ∈ samples, 5 * GRAPH_ROWS < s) ∧
    (resolveAuto samples ScaleType.linearMed = ScaleType.linearMed ↔
      ∀ s ∈ samples, s ≤ 5 * GRAPH_ROWS) := by
  induction samples with
  | nil => simp [resolveAuto]
  | cons s rest ih =>
      by_cases h : 5 * GRAPH_ROWS < s
      · have hrw : resolveAuto (s :: rest) ScaleType.linearMed =
            ScaleType.linearLarge :=
          resolveAuto_cons_large s rest _ (by rw [autoStep_med, if_pos h])
        rw [hrw]
        refine ⟨by simp, ?_, ?_⟩
        · simp only [true_iff]
          exact ⟨s, by simp, h⟩
        · constructor
          · intro hc
            exact absurd hc (by simp)
          · intro hall
            exact absurd (hall s (by simp)) (by omega)
      · have hstep : autoStep ScaleType.linearMed s = ScaleType.linearMed := by
          rw [autoStep_med, if_neg h]
        have hrw : resolveAuto (s :: rest) ScaleType.linearMed =
            resolveAuto rest ScaleType.linearMed := by
          rw [resolveAuto_cons_of_ne s rest _ (by rw [hstep]; simp), hstep]
        rw [hrw]
        refine ⟨ih.1, ?_, ?_⟩
        · rw [ih.2.1]
          simp only [List.mem_cons]
          constructor
          · rintro ⟨x, hx, hgt⟩
            exact ⟨x, Or.inr hx, hgt⟩
          · rintro ⟨x, hx | hx, hgt⟩
            · omega
            · exact ⟨x, hx, hgt⟩
        · rw [ih.2.2]
          simp only [List.mem_cons]
          constructor
          · intro hall x hx
            rcases hx with hx | hx
            · omega
            · exact hall x hx
          · intro hall x hx
            exact hall x (Or.inr hx)

/-- Full characterisation of the auto-detection scan started, as in the
code, from linearSmall. -/
lemma resolveAuto_from_small (samples : List ℕ) :
    (resolveAuto samples ScaleType.linearSmall = ScaleType.linearSmall ↔
      ∀ s ∈ samples, s ≤ 1 * GRAPH_ROWS) ∧
    (resolveAuto samples ScaleType.linearSmall = ScaleType.linearLarge ↔
      ∃ s ∈ samples, 5 * GRAPH_ROWS < s) ∧
    (resolveAuto samples ScaleType.linearSmall = ScaleType.linearMed ↔
      ((∃ s ∈ samples, 1 * GRAPH_ROWS < s) ∧
        ∀ s ∈ samples, s ≤ 5 * GRAPH_ROWS)) := by
  have hG : GRAPH_ROWS = 20 := rfl
  induction samples with
  | nil => simp [resolveAuto]
  | cons s rest ih =>
      by_cases h5 : 5 * GRAPH_ROWS < s
      · have hrw : resolveAuto (s :: rest) ScaleType.linearSmall =
            ScaleType.linearLarge :=
          resolveAuto_cons_large s rest _ (by rw [autoStep_small, if_pos h5])
        rw [hrw]
        refine ⟨?_, ?_, ?_⟩
        · constructor
          · intro hc
            exact absurd hc (by simp)
          · intro hall
            exact absurd (hall s (by simp)) (by omega)
        · simp only [true_iff]
          exact ⟨s, by simp, h5⟩
        · constructor
          · intro hc
            exact absurd hc (by simp)
          · rintro ⟨-, hall⟩
            exact absurd (hall s (by simp)) (by omega)
      · by_cases h1 : 1 * GRAPH_ROWS < s
        · have hstep : autoStep ScaleType.linearSmall s = ScaleType.linearMed := by
            rw [autoStep_small, if_neg h5, if_pos h1]
          have hrw : resolveAuto (s :: rest) ScaleType.linearSmall =
              resolveAuto rest ScaleType.linearMed := by
            rw [resolveAuto_cons_of_ne s rest _ (by rw [hstep]; simp), hstep]
          rw [hrw]
          have hmed := resolveAuto_from_med rest
          refine ⟨?_, ?_, ?_⟩
          · constructor
            · intro hc
              exact absurd hc hmed.1
            · intro hall
              exact absurd (hall s (by simp)) (by omega)
          · rw [hmed.2.1]
            simp only [List.mem_cons]
            constructor
            · rintro ⟨x, hx, hgt⟩
              exact ⟨x, Or.inr hx, hgt⟩
            · rintro ⟨x, hx | hx, hgt⟩
              · omega
              · exact ⟨x, hx, hgt⟩
          · rw [hmed.2.2]
            simp only [List.mem_cons]
            constructor
            · intro hall
              refine ⟨⟨s, Or.inl rfl, h1⟩, ?_⟩
              intro x hx
              rcases hx with hx | hx
              · omega
              · exact hall x hx
            · rintro ⟨-, hall⟩
              intro x hx
              exact hall x (Or.inr hx)
        · have hstep : autoStep ScaleType.linearSmall s = ScaleType.linearSmall := by
            rw [autoStep_small, if_neg h5, if_neg h1]
          have hrw : resolveAuto (s :: rest) ScaleType.linearSmall =
              resolveAuto rest ScaleType.linearSmall := by
            rw [resolveAuto_cons_of_ne s rest _ (by rw [hstep]; simp), hstep]
          rw [hrw]
          refine ⟨?_, ?_, ?_⟩
          · rw [ih.1]
            simp only [List.mem_cons]
            constructor
            · intro hall x hx
              rcases hx with hx | hx
              · omega
              · exact hall x hx
            · intro hall x hx
              exact hall x (Or.inr hx)
          · rw [ih.2.1]
            simp only [List.mem_cons]
            constructor
            · rintro ⟨x, hx, hgt⟩
              exact ⟨x, Or.inr hx, hgt⟩
            · rintro ⟨x, hx | hx, hgt⟩
              · omega
              · exact ⟨x, hx, hgt⟩
          · rw [ih.2.2]
            simp only [List.mem_cons]
            constructor
            · rintro ⟨⟨x, hx, hgt⟩, hall⟩
              refine ⟨⟨x, Or.inr hx, hgt⟩, ?_⟩
              intro y hy
              rcases hy with hy | hy
              · omega
              · exact hall y hy
            · rintro ⟨⟨x, hx, hgt⟩, hall⟩
              rcases hx with hx | hx
              · omega
              · refine ⟨⟨x, hx, hgt⟩, ?_⟩
                intro y hy
                exact hall y (Or.inr hy)

/-- C7.  Automatic scale resolution starts at linearSmall and escalates on
strict greater-than tests in a single scan: the result stays linearSmall
exactly when every sample is at most 1 * GRAPH_ROWS = 20, is linearLarge
exactly when some sample is strictly above 5 * GRAPH_ROWS = 100, and is
linearMed exactly when some sample is strictly above 20 but all are at
most 100.  Concretely, max 20 stays small, a 21 escalates to medium, and a
value above 100 resolves to large. -/
theorem auto_scale_resolution (samples : List ℕ) :
    (resolveAutoScale samples = ScaleType.linearSmall ↔
      ∀ s ∈ samples, s ≤ 1 * GRAPH_ROWS) ∧
    (resolveAutoScale samples = ScaleType.linearLarge ↔
      ∃ s ∈ samples, 5 * GRAPH_ROWS < s) ∧
    (resolveAutoScale samples = ScaleType.linearMed ↔
      ((∃ s ∈ samples, 1 * GRAPH_ROWS < s) ∧
        ∀ s ∈ samples, s ≤ 5 * GRAPH_ROWS)) ∧
    resolveAutoScale [20, 20] = ScaleType.linearSmall ∧
    resolveAutoScale [21] = ScaleType.linearMed ∧
    resolveAutoScale [5, 101] = ScaleType.linearLarge := by
  have h := resolveAuto_from_small samples
  exact ⟨h.1, h.2.1, h.2.2, by decide, by decide, by decide⟩

/-- C8, evaluation at the failing input.  When every sample lands in
bucket 0 (here three samples equal to 1 under the small linear scale) the
highest nonzero bucket is high = 0, yet that bucket is rendered with the
overflow label read from scale[high - 1] = scale[-1], an out-of-bounds
scale-table index: the claim that this index is always within bounds fails
on the code. -/
theorem overflow_label_reads_scale_at_minus_one :
    highIdx ScaleType.linearSmall [1, 1, 1] = 0 ∧
    freqOf ScaleType.linearSmall [1, 1, 1] 0 = 3 ∧
    bucketLabel ScaleType.linearSmall (highIdx ScaleType.linearSmall [1, 1, 1]) 0 =
      BucketLabel.gtScaleEntry (-1) ∧
    overflowScaleIdx ScaleType.linearSmall [1, 1, 1] < 0 := by
  refine ⟨by decide, by decide, ?_, by decide⟩
  have h : highIdx ScaleType.linearSmall [1, 1, 1] = 0 := by decide
  rw [h]
  decide

/-- Unfolding collect at a zero-length retry. -/
lemma collect_retry (src : ℕ → SourceReply) (fuel slots pos : ℕ)
    (acc : List ℕ) (h : src pos = SourceReply.keyReply 0) :
    collect src (fuel + 1) (slots + 1) pos acc =
      collect src fuel (slots + 1) (pos + 1) acc := by
  simp [collect, h]

/-- Unfolding collect at a successful nonzero read. -/
lemma collect_store (src : ℕ → SourceReply) (fuel slots pos : ℕ)
    (acc : List ℕ) (sl : ℕ) (h : src pos = SourceReply.keyReply sl)
    (hsl : sl ≠ 0) :
    collect src (fuel + 1) (slots + 1) pos acc =
      collect src fuel slots (pos + 1) (sl :: acc) := by
  simp [collect, h, hsl]

/-- A reply that isKey is a keyReply. -/
lemma isKey_exists (r : SourceReply) (h : r.isKey = true) :
    ∃ sl, r = SourceReply.keyReply sl := by
  cases r <;> simp [SourceReply.isKey] at h ⊢

/-- If the current request yields a nonzero size, one slot is consumed and
the remaining budget is filled by the induction hypothesis. -/
lemma collect_place (src : ℕ → SourceReply)
    (hkey : ∀ i, (src i).isKey = true) (n : ℕ)
    (ih : ∀ pos acc, (∀ s ∈ acc, 0 < s) →
      ∃ fuel out, collect src fuel n pos acc = CollectResult.ok out ∧
        out.length = n + acc.length ∧ ∀ s ∈ out, 0 < s) :
    ∀ pos acc, (∀ s ∈ acc, 0 < s) → (src pos).size ≠ 0 →
      ∃ fuel out, collect src fuel (n + 1) pos acc = CollectResult.ok out ∧
        out.length = (n + 1) + acc.length ∧ ∀ s ∈ out, 0 < s := by
  intro pos acc hacc hnz
  obtain ⟨sl, hsl⟩ := isKey_exists (src pos) (hkey pos)
  have hslnz : sl ≠ 0 := by
    rw [hsl] at hnz
    simpa [SourceReply.size] using hnz
  have hacc2 : ∀ s ∈ sl :: acc, 0 < s := by
    intro s hs
    rcases List.mem_cons.mp hs with hs | hs
    · omega
    · exact hacc s hs
  obtain ⟨fuel, out, heq, hlen, hpos⟩ := ih (pos + 1) (sl :: acc) hacc2
  refine ⟨fuel + 1, out, ?_, ?_, hpos⟩
  · rw [collect_store src fuel n pos acc sl hsl hslnz]
    exact heq
  · simp only [List.length_cons] at hlen
    omega

/-- Walking forward to the next nonzero read: if position pos + d yields a
nonzero size, the collection from pos fills its budget. -/
lemma collect_reach (src : ℕ → SourceReply)
    (hkey : ∀ i, (src i).isKey = true) (n : ℕ)
    (ih : ∀ pos acc, (∀ s ∈ acc, 0 < s) →
      ∃ fuel out, collect src fuel n pos acc = CollectResult.ok out ∧
        out.length = n + acc.length ∧ ∀ s ∈ out, 0 < s) :
    ∀ d pos acc, (∀ s ∈ acc, 0 < s) → (src (pos + d)).size ≠ 0 →
      ∃ fuel out, collect src fuel (n + 1) pos acc = CollectResult.ok out ∧
        out.length = (n + 1) + acc.length ∧ ∀ s ∈ out, 0 < s := by
  intro d
  induction d with
  | zero =>
      intro pos acc hacc hnz
      exact collect_place src hkey n ih pos acc hacc (by simpa using hnz)
  | succ d ihd =>
      intro pos acc hacc hnz
      by_cases h0 : (src pos).size = 0
      · obtain ⟨sl, hsl⟩ := isKey_exists (src pos) (hkey pos)
        have hsl0 : sl = 0 := by
          rw [hsl] at h0
          simpa [SourceReply.size] using h0
        rw [hsl0] at hsl
        have hnz2 : (src ((pos + 1) + d)).size ≠ 0 := by
          have harr : pos + 1 + d = pos + (d + 1) := by omega
          rw [harr]
          exact hnz
        obtain ⟨fuel, out, heq, hlen, hpos⟩ := ihd (pos + 1) acc hacc hnz2
        refine ⟨fuel + 1, out, ?_, hlen, hpos⟩
        rw [collect_retry src fuel n pos acc hsl]
        exact heq
      · exact collect_place src hkey n ih pos acc hacc h0

/-- A source that never fails and always eventually yields a nonzero size
lets the collection fill any slot budget with positive samples. -/
lemma collect_ok_aux (src : ℕ → SourceReply)
    (hkey : ∀ i, (src i).isKey = true)
    (hev : ∀ i, ∃ j, i ≤ j ∧ (src j).size ≠ 0) :
    ∀ slots pos acc, (∀ s ∈ acc, 0 < s) →
      ∃ fuel out, collect src fuel slots pos acc = CollectResult.ok out ∧
        out.length = slots + acc.length ∧ ∀ s ∈ out, 0 < s := by
  intro slots
  induction slots with
  | zero =>
      intro pos acc hacc
      refine ⟨0, acc.reverse, by simp [collect], by simp, ?_⟩
      intro s hs
      exact hacc s (List.mem_reverse.mp hs)
  | succ n ih =>
      intro pos acc hacc
      obtain ⟨j, hj, hnz⟩ := hev pos
      have hnz2 : (src (pos + (j - pos))).size ≠ 0 := by
        have harr : pos + (j - pos) = j := by omega
        rw [harr]
        exact hnz
      exact collect_reach src hkey n ih (j - pos) pos acc hacc hnz2

/-- C10.  A zero serialized size makes the loop retry the same slot (the
budget argument is unchanged, only the request position advances), and
when the source never reports empty or error and every position is
eventually followed by a nonzero size, the collection terminates with
exactly the requested number of samples, all strictly positive. -/
theorem collect_retries_zero_and_fills_budget :
    (∀ (src : ℕ → SourceReply) (fuel slots pos : ℕ) (acc : List ℕ),
      src pos = SourceReply.keyReply 0 →
      collect src (fuel + 1) (slots + 1) pos acc =
        collect src fuel (slots + 1) (pos + 1) acc) ∧
    (∀ (src : ℕ → SourceReply),
      (∀ i, (src i).isKey = true) →
      (∀ i, ∃ j, i ≤ j ∧ (src j).size ≠ 0) →
      ∀ n, ∃ fuel out, collect src fuel n 0 [] = CollectResult.ok out ∧
        out.length = n ∧ ∀ s ∈ out, 0 < s) := by
  constructor
  · intro src fuel slots pos acc h
    exact collect_retry src fuel slots pos acc h
  · intro src hkey hev n
    obtain ⟨fuel, out, heq, hlen, hpos⟩ := collect_ok_aux src hkey hev n 0 [] (by simp)
    exact ⟨fuel, out, heq, by simpa using hlen, hpos⟩

/-- C10, witness: with the source whose i-th reply is a key of serialized
size i, the first read is a zero retried in place, and a budget of two
slots is filled with two positive samples. -/
theorem collect_retries_zero_and_fills_budget_witness :
    (collect (fun _ => SourceReply.keyReply 0) 1 1 0 [] =
      collect (fun _ => SourceReply.keyReply 0) 0 1 1 []) ∧
    (∃ fuel out, collect (fun i => SourceReply.keyReply i) fuel 2 0 [] =
      CollectResult.ok out ∧ out.length = 2 ∧ ∀ s ∈ out, 0 < s) :=
  ⟨collect_retries_zero_and_fills_budget.1 (fun _ => SourceReply.keyReply 0) 0 0 0 [] rfl,
    collect_retries_zero_and_fills_budget.2 (fun i => SourceReply.keyReply i)
      (fun _ => rfl) (fun i => ⟨i + 1, Nat.le_succ i, Nat.succ_ne_zero i⟩) 2⟩

/-- Ceiling bound: at most TOTAL_PAGES pages are needed when the item fits
into TOTAL_PAGES pages of the given size. -/
lemma pagesNeeded_le (b ps : ℕ) (hps : 1 ≤ ps) (hb : b ≤ TOTAL_PAGES * ps) :
    pagesNeeded b ps ≤ TOTAL_PAGES := by
  unfold pagesNeeded
  rw [Nat.div_le_iff_le_mul_add_pred hps]
  rw [mul_comm] at hb
  omega

/-- The ceiling covers the item: bytes fit in pagesNeeded pages. -/
lemma le_pagesNeeded_mul (b ps : ℕ) (hps : 1 ≤ ps) :
    b ≤ pagesNeeded b ps * ps := by
  unfold pagesNeeded
  rw [mul_comm]
  have h1 := Nat.div_add_mod (b + (ps - 1)) ps
  have h2 : (b + (ps - 1)) % ps < ps := Nat.mod_lt _ hps
  omega

/-- A positive item needs at least one page. -/
lemma pagesNeeded_pos (b ps : ℕ) (hps : 1 ≤ ps) (hb : 1 ≤ b) :
    1 ≤ pagesNeeded b ps := by
  unfold pagesNeeded
  rw [Nat.one_le_div_iff hps]
  omega

/-- A zero-byte item needs zero pages. -/
lemma pagesNeeded_zero (ps : ℕ) (hps : 1 ≤ ps) : pagesNeeded 0 ps = 0 := by
  unfold pagesNeeded
  exact Nat.div_eq_of_lt (by omega)

/-- When the run fits in the table the size_t subtraction does not wrap
and the offset modulus is TOTAL_PAGES + 1 - pn. -/
lemma offsetModulus_eq (pn : ℕ) (h : pn ≤ TOTAL_PAGES) :
    offsetModulus pn = TOTAL_PAGES + 1 - pn := by
  have hTP : TOTAL_PAGES = 1000000 := rfl
  have hpow : (2 : ℤ) ^ 64 = 18446744073709551616 := by norm_num
  unfold offsetModulus
  have hpz : (pn : ℤ) ≤ (TOTAL_PAGES : ℤ) := by exact_mod_cast h
  have hTPz : (TOTAL_PAGES : ℤ) = 1000000 := by exact_mod_cast hTP
  have h0 : (0 : ℤ) ≤ (TOTAL_PAGES : ℤ) - ((pn : ℤ) - 1) := by omega
  have h1 : (TOTAL_PAGES : ℤ) - ((pn : ℤ) - 1) < 2 ^ 64 := by
    have hpn0 : (0 : ℤ) ≤ (pn : ℤ) := Int.natCast_nonneg pn
    omega
  rw [Int.emod_eq_of_lt h0 h1]
  omega

/-- A run is accepted exactly when every page of it reads free. -/
lemma runFree_iff (occ : Finset ℕ) (junk : ℕ → Bool) (off pn : ℕ) :
    runFree occ junk off pn = true ↔
      ∀ k, k < pn → isFree occ junk (off + k) = true := by
  unfold runFree
  rw [List.all_eq_true]
  simp

/-- An in-bounds page that reads free is not occupied. -/
lemma isFree_inbounds (occ : Finset ℕ) (junk : ℕ → Bool) (i : ℕ)
    (h : i < TOTAL_PAGES) (hf : isFree occ junk i = true) : i ∉ occ := by
  unfold isFree at hf
  rw [if_pos h] at hf
  simpa using hf

/-- Membership in the set of table entries marked by a placement. -/
lemma mem_runPages (off pn i : ℕ) :
    i ∈ runPages off pn ↔ ((∃ k, k < pn ∧ off + k = i) ∧ i < TOTAL_PAGES) := by
  unfold runPages
  simp [List.mem_filter, List.mem_map, List.mem_range, and_assoc]

/-- An in-bounds run marks exactly the interval of its pages. -/
lemma runPages_eq_Ico (off pn : ℕ) (h : off + pn ≤ TOTAL_PAGES) :
    runPages off pn = Finset.Ico off (off + pn) := by
  ext i
  rw [mem_runPages, Finset.mem_Ico]
  constructor
  · rintro ⟨⟨k, hk, hik⟩, hlt⟩
    omega
  · rintro ⟨h1, h2⟩
    exact ⟨⟨i - off, by omega, by omega⟩, by omega⟩

/-- An accepted offset has a fully free run and respects the modulus. -/
lemma findOffset_some (tape : ℕ → ℕ) (junk : ℕ → Bool) (occ : Finset ℕ)
    (pn m : ℕ) :
    ∀ a pos p, findOffset tape junk occ pn m pos a = some p →
      runFree occ junk p.1 pn = true ∧ (0 < m → p.1 < m) := by
  intro a
  induction a with
  | zero =>
      intro pos p h
      simp [findOffset] at h
  | succ a ih =>
      intro pos p h
      simp only [findOffset] at h
      split at h
      · next hfree =>
          cases h
          exact ⟨hfree, fun hm => Nat.mod_lt _ hm⟩
      · exact ih _ _ h

/-- If every draw yields a rejected offset, the attempt loop fails. -/
lemma findOffset_none_of_always (tape : ℕ → ℕ) (junk : ℕ → Bool)
    (occ : Finset ℕ) (pn m : ℕ)
    (hfail : ∀ pos, runFree occ junk (tape pos % m) pn = false) :
    ∀ a pos, findOffset tape junk occ pn m pos a = none := by
  intro a
  induction a with
  | zero =>
      intro pos
      simp [findOffset]
  | succ a ih =>
      intro pos
      simp [findOffset, hfail pos, ih]

/-- The simulation invariant: the occupancy table only holds in-bounds
indices, used_pages is covered by the occupied entries, and stored_bytes
fits in the used pages. -/
def SimInv (ps : ℕ) (st : SimState) : Prop :=
  st.occ ⊆ Finset.range TOTAL_PAGES ∧ st.used ≤ st.occ.card ∧
    st.stored ≤ st.used * ps

/-- simStep with its let bindings expanded. -/
lemma simStep_eq (ps : ℕ) (samples : List ℕ) (tape : ℕ → ℕ)
    (junk : ℕ → Bool) (st : SimState) :
    simStep ps samples tape junk st =
      match findOffset tape junk st.occ
          (pagesNeeded (samples.getD (tape st.pos % samples.length) 0) ps)
          (offsetModulus
            (pagesNeeded (samples.getD (tape st.pos % samples.length) 0) ps))
          (st.pos + 1) RETRY_LIMIT with
      | some p => some ⟨st.occ ∪
            runPages p.1
              (pagesNeeded (samples.getD (tape st.pos % samples.length) 0) ps),
          st.stored + samples.getD (tape st.pos % samples.length) 0,
          st.used +
            pagesNeeded (samples.getD (tape st.pos % samples.length) 0) ps,
          p.2⟩
      | none => none := rfl

/-- One completed placement preserves the invariant, provided every sample
is positive and fits in the table. -/
lemma simStep_inv (ps : ℕ) (samples : List ℕ) (tape : ℕ → ℕ)
    (junk : ℕ → Bool) (st st2 : SimState) (hps : 1 ≤ ps)
    (hsamp : ∀ b ∈ samples, 1 ≤ b ∧ b ≤ TOTAL_PAGES * ps)
    (hinv : SimInv ps st)
    (h : simStep ps samples tape junk st = some st2) : SimInv ps st2 := by
  rw [simStep_eq] at h
  set r := tape st.pos % samples.length with hr
  set bytes := samples.getD r 0 with hbytes
  set pn := pagesNeeded bytes ps with hpn
  have hbcase : bytes ∈ samples ∨ bytes = 0 := by
    by_cases hlen : r < samples.length
    · left
      rw [hbytes, List.getD_eq_getElem samples 0 hlen]
      exact List.getElem_mem hlen
    · right
      rw [hbytes, List.getD_eq_default samples 0 (by omega)]
  have hbytes_le : bytes ≤ pn * ps := by
    rcases hbcase with hb | hb
    · exact le_pagesNeeded_mul bytes ps hps
    · rw [hb]
      omega
  have hpnle : pn ≤ TOTAL_PAGES := by
    rcases hbcase with hb | hb
    · exact pagesNeeded_le bytes ps hps (hsamp bytes hb).2
    · rw [hpn, hb, pagesNeeded_zero ps hps]
      omega
  have hm := offsetModulus_eq pn hpnle
  rcases hfo : findOffset tape junk st.occ pn (offsetModulus pn)
      (st.pos + 1) RETRY_LIMIT with _ | p
  · rw [hfo] at h
    simp at h
  · rw [hfo] at h
    simp only [Option.some.injEq] at h
    obtain ⟨hfree, hlt⟩ := findOffset_some tape junk st.occ pn
      (offsetModulus pn) RETRY_LIMIT (st.pos + 1) p hfo
    have hTP : TOTAL_PAGES = 1000000 := rfl
    have hmpos : 0 < offsetModulus pn := by omega
    have hoff : p.1 + pn ≤ TOTAL_PAGES := by
      have := hlt hmpos
      omega
    have hIco : runPages p.1 pn = Finset.Ico p.1 (p.1 + pn) :=
      runPages_eq_Ico p.1 pn hoff
    have hdisj : Disjoint st.occ (runPages p.1 pn) := by
      rw [Finset.disjoint_right]
      intro i hi
      rw [hIco, Finset.mem_Ico] at hi
      have hfk := (runFree_iff st.occ junk p.1 pn).mp hfree (i - p.1) (by omega)
      have harr : p.1 + (i - p.1) = i := by omega
      rw [harr] at hfk
      exact isFree_inbounds st.occ junk i (by omega) hfk
  -- the new state
    rw [← h]
    refine ⟨?_, ?_, ?_⟩
    · intro i hi
      rcases Finset.mem_union.mp hi with hi | hi
      · exact hinv.1 hi
      · rw [hIco, Finset.mem_Ico] at hi
        exact Finset.mem_range.mpr (by omega)
    · have hcard : (st.occ ∪ runPages p.1 pn).card =
          st.occ.card + (runPages p.1 pn).card :=
        Finset.card_union_of_disjoint hdisj
      have hcard2 : (runPages p.1 pn).card = pn := by
        rw [hIco, Nat.card_Ico]
        omega
      have h2 := hinv.2.1
      simp only [hcard, hcard2]
      omega
    · have h3 := hinv.2.2
      simp only [add_mul]
      omega

/-- The invariant is preserved by the whole simulation loop. -/
lemma simLoop_inv (ps : ℕ) (samples : List ℕ) (tape : ℕ → ℕ)
    (junk : ℕ → Bool) (hps : 1 ≤ ps)
    (hsamp : ∀ b ∈ samples, 1 ≤ b ∧ b ≤ TOTAL_PAGES * ps) :
    ∀ fuel st, SimInv ps st →
      SimInv ps (simLoop ps samples tape junk fuel st) := by
  intro fuel
  induction fuel with
  | zero =>
      intro st hinv
      exact hinv
  | succ fuel ih =>
      intro st hinv
      simp only [simLoop]
      rcases hstep : simStep ps samples tape junk st with _ | st2
      · exact hinv
      · exact ih st2 (simStep_inv ps samples tape junk st st2 hps hsamp hinv hstep)

/-- C4, amended.  For every candidate simulation run over positive sample
sizes that each fit into the table (bytes at most TOTAL_PAGES * pageSize
-- without that bound the size_t computation of the offset modulus wraps
and the invariant fails, see the counterexample), at every step of the
run the accumulated totals satisfy storedBytes <= usedPages * pageSize and
usedPages <= TOTAL_PAGES. -/
theorem sim_invariants_of_bounded_samples (ps : ℕ) (samples : List ℕ)
    (hps : 1 ≤ ps)
    (hsamp : ∀ b ∈ samples, 1 ≤ b ∧ b ≤ TOTAL_PAGES * ps) :
    ∀ (tape : ℕ → ℕ) (junk : ℕ → Bool) (fuel : ℕ),
      (simLoop ps samples tape junk fuel simInit).stored ≤
        (simLoop ps samples tape junk fuel simInit).used * ps ∧
      (simLoop ps samples tape junk fuel simInit).used ≤ TOTAL_PAGES := by
  intro tape junk fuel
  have hinit : SimInv ps simInit := by
    refine ⟨?_, ?_, ?_⟩ <;> simp [simInit]
  have hinv := simLoop_inv ps samples tape junk hps hsamp fuel simInit hinit
  refine ⟨hinv.2.2, ?_⟩
  have hcard : (simLoop ps samples tape junk fuel simInit).occ.card ≤
      TOTAL_PAGES := by
    have := Finset.card_le_card hinv.1
    simpa using this
  have := hinv.2.1
  omega

/-- C4, witness: one placement of an 8-byte item at page size 8 keeps the
invariants. -/
theorem sim_invariants_of_bounded_samples_witness :
    (simLoop 8 [8] (fun _ => 0) (fun _ => false) 1 simInit).stored ≤
      (simLoop 8 [8] (fun _ => 0) (fun _ => false) 1 simInit).used * 8 ∧
    (simLoop 8 [8] (fun _ => 0) (fun _ => false) 1 simInit).used ≤ TOTAL_PAGES :=
  sim_invariants_of_bounded_samples 8 [8] (by omega)
    (by decide) (fun _ => 0) (fun _ => false) 1

/-- Every page reads free on an empty table whose out-of-bounds bytes
happen to be zero. -/
lemma isFree_empty_falseJunk (i : ℕ) :
    isFree ∅ (fun _ => false) i = true := by
  unfold isFree
  split <;> simp

/-- Hence every run is accepted on such a table. -/
lemma runFree_empty_falseJunk (off pn : ℕ) :
    runFree ∅ (fun _ => false) off pn = true := by
  rw [runFree_iff]
  intro k hk
  exact isFree_empty_falseJunk _

/-- The attempt loop accepts its very first draw when that run is free. -/
lemma findOffset_first (tape : ℕ → ℕ) (junk : ℕ → Bool) (occ : Finset ℕ)
    (pn m pos a : ℕ)
    (h : runFree occ junk (tape pos % m) pn = true) :
    findOffset tape junk occ pn m pos (a + 1) =
      some (tape pos % m, pos + 1) := by
  simp [findOffset, h]

/-- simStep when the very first placement attempt is accepted. -/
lemma simStep_first_draw (ps : ℕ) (samples : List ℕ) (tape : ℕ → ℕ)
    (junk : ℕ → Bool) (st : SimState) (bytes pn : ℕ)
    (hb : samples.getD (tape st.pos % samples.length) 0 = bytes)
    (hpn : pagesNeeded bytes ps = pn)
    (hfree : runFree st.occ junk (tape (st.pos + 1) % offsetModulus pn) pn
      = true) :
    simStep ps samples tape junk st =
      some ⟨st.occ ∪ runPages (tape (st.pos + 1) % offsetModulus pn) pn,
        st.stored + bytes, st.used + pn, st.pos + 2⟩ := by
  rw [simStep_eq, hb, hpn]
  rw [show RETRY_LIMIT = 199 + 1 from rfl]
  rw [findOffset_first tape junk st.occ pn (offsetModulus pn) (st.pos + 1)
    199 hfree]

/-- A one-placement run of the loop. -/
lemma simLoop_one (ps : ℕ) (samples : List ℕ) (tape : ℕ → ℕ)
    (junk : ℕ → Bool) (st st2 : SimState)
    (h : simStep ps samples tape junk st = some st2) :
    simLoop ps samples tape junk 1 st = st2 := by
  rw [show (1 : ℕ) = 0 + 1 from rfl]
  simp only [simLoop, h]

/-- C4, counterexample to the claim as stated.  The sample 8000016 is
positive, yet at page size 8 it needs 1000002 pages, the size_t
subtraction totpages - (pages_needed - 1) wraps around to 2^64 - 1, the
first drawn run straddles the end of the table (whose out-of-bounds bytes
read zero here), the placement is accepted, and used_pages jumps to
1000002, strictly more than TOTAL_PAGES. -/
theorem sim_used_pages_overflow_cex :
    (∀ b ∈ [8000016], 0 < b) ∧
    TOTAL_PAGES <
      (simLoop 8 [8000016] (fun _ => 0) (fun _ => false) 1 simInit).used := by
  refine ⟨by decide, ?_⟩
  have hpn : pagesNeeded 8000016 8 = 1000002 := by
    norm_num [pagesNeeded]
  have hstep := simStep_first_draw 8 [8000016] (fun _ => 0) (fun _ => false)
    simInit 8000016 1000002 rfl hpn (runFree_empty_falseJunk _ _)
  rw [simLoop_one 8 [8000016] (fun _ => 0) (fun _ => false) simInit _ hstep]
  show TOTAL_PAGES < simInit.used + 1000002
  decide

/-- C5.  First conjunct: whenever all RETRY_LIMIT placement attempts for
an item fail (simStep returns none), the while loop stops at once and
reports the state exactly as accumulated, however much fuel remains — no
error and no further iteration.  Second conjunct: in particular, with the
occupancy table already full and positive samples that fit in the table,
every attempt fails. -/
theorem sim_exhaustion_terminates :
    (∀ (ps : ℕ) (samples : List ℕ) (tape : ℕ → ℕ) (junk : ℕ → Bool)
      (fuel : ℕ) (st : SimState),
      simStep ps samples tape junk st = none →
      simLoop ps samples tape junk fuel st = st) ∧
    (∀ (ps : ℕ) (samples : List ℕ) (tape : ℕ → ℕ) (junk : ℕ → Bool)
      (st : SimState), 1 ≤ ps → samples ≠ [] →
      (∀ b ∈ samples, 1 ≤ b ∧ b ≤ TOTAL_PAGES * ps) →
      (∀ i, i < TOTAL_PAGES → i ∈ st.occ) →
      simStep ps samples tape junk st = none) := by
  constructor
  · intro ps samples tape junk fuel st h
    cases fuel with
    | zero => rfl
    | succ fuel => simp only [simLoop, h]
  · intro ps samples tape junk st hps hne hsamp hfull
    rw [simStep_eq]
    set bytes := samples.getD (tape st.pos % samples.length) 0 with hbytes
    have hmem : bytes ∈ samples := by
      have hlen : 0 < samples.length := List.length_pos.mpr hne
      have hr : tape st.pos % samples.length < samples.length :=
        Nat.mod_lt _ hlen
      rw [hbytes, List.getD_eq_getElem samples 0 hr]
      exact List.getElem_mem hr
    set pn := pagesNeeded bytes ps with hpn
    have hpn1 : 1 ≤ pn := pagesNeeded_pos bytes ps hps (hsamp bytes hmem).1
    have hpnle : pn ≤ TOTAL_PAGES :=
      pagesNeeded_le bytes ps hps (hsamp bytes hmem).2
    have hm := offsetModulus_eq pn hpnle
    have hfail : ∀ pos,
        runFree st.occ junk (tape pos % offsetModulus pn) pn = false := by
      intro pos
      set off := tape pos % offsetModulus pn with hoff
      have hofflt : off < offsetModulus pn := Nat.mod_lt _ (by omega)
      have hoffTP : off < TOTAL_PAGES := by omega
      rw [← Bool.not_eq_true, runFree_iff]
      intro hall
      have h0 := hall 0 (by omega)
      rw [Nat.add_zero] at h0
      exact absurd (hfull off hoffTP)
        (isFree_inbounds st.occ junk off hoffTP h0)
    rw [findOffset_none_of_always tape junk st.occ pn (offsetModulus pn)
      hfail RETRY_LIMIT (st.pos + 1)]

/-- C5, witness: on a table whose every page is occupied, the loop leaves
the accumulated totals untouched for any remaining fuel. -/
theorem sim_exhaustion_terminates_witness :
    simLoop 8 [8] (fun _ => 0) (fun _ => false) 5
        ⟨Finset.range TOTAL_PAGES, 24, 3, 7⟩ =
      ⟨Finset.range TOTAL_PAGES, 24, 3, 7⟩ :=
  sim_exhaustion_terminates.1 8 [8] (fun _ => 0) (fun _ => false) 5 _
    (sim_exhaustion_terminates.2 8 [8] (fun _ => 0) (fun _ => false) _
      (by omega) (by simp) (by decide) (fun i hi => Finset.mem_range.mpr hi))

/-- C3.  The tested page sizes are exactly 8, 16, ..., 65536 (doubling,
65536 included), in strictly ascending order, and every recorded candidate
result carries the score (storedBytes/TOTAL_PAGES) *
(storedBytes*100/(TOTAL_PAGES*pageSize)) computed from its own accumulated
storedBytes, with the double arithmetic embedded as exact rationals. -/
theorem candidate_pagesizes_and_score :
    candidates = [8, 16, 32, 64, 128, 256, 512, 1024, 2048, 4096,
      8192, 16384, 32768, 65536] ∧
    List.Chain' (fun a b => a < b) candidates ∧
    ∀ (samples : List ℕ) (tape : ℕ → ℕ) (junk : ℕ → Bool) (fuel : ℕ)
      (r : CandidateResult), r ∈ vmpageResults samples tape junk fuel →
      r.score = ((r.storedBytes : ℚ) / (TOTAL_PAGES : ℚ)) *
        ((r.storedBytes : ℚ) * 100 /
          ((TOTAL_PAGES : ℚ) * (r.pageSize : ℚ))) := by
  have hc : candidates = [8, 16, 32, 64, 128, 256, 512, 1024, 2048, 4096,
      8192, 16384, 32768, 65536] := by
    simp [candidates, pagesizesFrom]
  refine ⟨hc, by rw [hc]; simp [List.chain'_cons], ?_⟩
  intro samples tape junk fuel r hr
  obtain ⟨ps, hps, hr⟩ := List.mem_map.mp hr
  rw [← hr]
  simp [runCandidate, scoreOf]

/-- C3, witness: the page-size-8 result of a run is recorded among the
results and its score satisfies the formula. -/
theorem candidate_pagesizes_and_score_witness :
    (runCandidate [] (fun _ => 0) (fun _ => false) 0 8 ∈
      vmpageResults [] (fun _ => 0) (fun _ => false) 0) ∧
    (runCandidate [] (fun _ => 0) (fun _ => false) 0 8).score =
      (((runCandidate [] (fun _ => 0) (fun _ => false) 0 8).storedBytes : ℚ) /
          (TOTAL_PAGES : ℚ)) *
        (((runCandidate [] (fun _ => 0) (fun _ => false) 0 8).storedBytes : ℚ)
          * 100 /
          ((TOTAL_PAGES : ℚ) *
            ((runCandidate [] (fun _ => 0) (fun _ => false) 0 8).pageSize : ℚ))) := by
  have hmem : runCandidate [] (fun _ => 0) (fun _ => false) 0 8 ∈
      vmpageResults [] (fun _ => 0) (fun _ => false) 0 := by
    unfold vmpageResults
    exact List.mem_map_of_mem _ (by simp [candidates, pagesizesFrom])
  exact ⟨hmem, candidate_pagesizes_and_score.2.2 [] (fun _ => 0)
    (fun _ => false) 0 _ hmem⟩
